import Mathlib

/-!
Shallow embedding of the SlimIO TimeMap implementation (src/index.js).

The JavaScript class keeps, per instance:
  - a Map from key to a record (ts, value)            -> store
  - a private currentKey field (SymCurrKey)           -> currKey
  - a private interval field (SymInterval) holding
    the last setTimeout handle or null                -> interval (timer id)
  - the configured timeLife in milliseconds           -> timeLife

The Node.js runtime state of pending (scheduled, uncancelled, unfired)
timeouts is made explicit as a list of Timer records, and the sequence of
emitted "expiration" events is recorded in an emitted log.  Timestamps are
naturals (Date.now()); timer deadlines are integers because the delay
arithmetic in checkInterval is done on JS numbers.

Every public operation takes the current wall-clock time (Date.now()) as an
explicit argument.  Operations that can throw return an Except value paired
with the state observed after the call: a throw happens before any mutation
in the source, so the paired state is the input state in those cases.
-/

set_option linter.unusedVariables false

/-- The typeof-kind of a JavaScript value used as a key. -/
inductive JSKind where
  | str
  | sym
  | num
  | boolKind
  | nullKind
  | undefKind
  | objKind
deriving DecidableEq, Repr

/-- A JavaScript key value: its typeof kind plus an identity tag. -/
structure JSKey where
  kind : JSKind
  id : Nat
deriving DecidableEq, Repr

/-- assertKey (src/index.js lines 31-36): accepted kinds are string, symbol, number. -/
def validKeyKind (k : JSKey) : Bool :=
  k.kind = JSKind.str || k.kind = JSKind.sym || k.kind = JSKind.num

/-- A stored entry: the Date.now() timestamp at last touch and the value. -/
structure TimeValue where
  ts : Nat
  value : Nat
deriving DecidableEq, Repr

/-- A pending setTimeout: handle id, the key/value captured by the callback
closure, and the absolute instant at which it becomes due. -/
structure Timer where
  id : Nat
  key : JSKey
  value : Nat
  fireAt : Int
deriving DecidableEq, Repr

/-- The two error kinds thrown by the key-taking operations. -/
inductive JsError where
  | typeError
  | notFoundError
deriving DecidableEq, Repr

/-- Full state of one TimeMap instance plus the runtime timer queue and the
log of emitted expiration events. -/
structure TMState where
  store : List (JSKey × TimeValue)
  currKey : Option JSKey
  interval : Option Nat
  timers : List Timer
  nextId : Nat
  emitted : List (JSKey × Nat)
  timeLife : Nat
deriving DecidableEq, Repr

/-! ### Map primitives (insertion-ordered JS Map semantics) -/

/-- Map.prototype.get: first entry with the given key. -/
def mapGet (k : JSKey) : List (JSKey × TimeValue) → Option TimeValue
  | [] => none
  | p :: rest => if p.1 = k then some p.2 else mapGet k rest

/-- Map.prototype.set: overwrite in place keeping position, else append. -/
def mapSet (k : JSKey) (v : TimeValue) : List (JSKey × TimeValue) → List (JSKey × TimeValue)
  | [] => [(k, v)]
  | p :: rest => if p.1 = k then (k, v) :: rest else p :: mapSet k v rest

/-- Map.prototype.delete: remove the entry with the given key. -/
def mapDelete (k : JSKey) : List (JSKey × TimeValue) → List (JSKey × TimeValue)
  | [] => []
  | p :: rest => if p.1 = k then mapDelete k rest else p :: mapDelete k rest

/-- A well-formed JS Map never holds two entries with the same key. -/
def nodupKeys (l : List (JSKey × TimeValue)) : Prop :=
  (l.map Prod.fst).Nodup

instance (l : List (JSKey × TimeValue)) : Decidable (nodupKeys l) := by
  unfold nodupKeys; infer_instance

deriving instance DecidableEq for Except

/-! ### Timer-queue primitives -/

/-- clearTimeout on a handle id: drop that pending timeout. -/
def removeTimer (i : Nat) : List Timer → List Timer
  | [] => []
  | t :: rest => if t.id = i then removeTimer i rest else t :: removeTimer i rest

/-- clearTimeout applied to the interval field (clearTimeout(null) is a no-op). -/
def clearTimeoutH (h : Option Nat) (s : TMState) : TMState :=
  match h with
  | none => s
  | some i => { s with timers := removeTimer i s.timers }

/-- Look up a pending timeout by handle id. -/
def findTimer (i : Nat) : List Timer → Option Timer
  | [] => none
  | t :: rest => if t.id = i then some t else findTimer i rest

/-! ### The re-arming algorithm (checkInterval, src/index.js lines 44-78) -/

/-- Stable insertion step for sorting entries by ts descending, exactly the
order produced by the stable Array.prototype.sort with comparator
(left, right) => right.ts - left.ts. -/
def sortDescInsert (p : JSKey × TimeValue) :
    List (JSKey × TimeValue) → List (JSKey × TimeValue)
  | [] => [p]
  | q :: rest => if q.2.ts ≤ p.2.ts then p :: q :: rest else q :: sortDescInsert p rest

/-- Stable sort of the entries by ts descending. -/
def sortDesc : List (JSKey × TimeValue) → List (JSKey × TimeValue)
  | [] => []
  | p :: rest => sortDescInsert p (sortDesc rest)

/-- The while loop of checkInterval: the sorted array is consumed from its
end (pop), i.e. in ascending-ts order.  An entry whose deltaTime reaches
timeLife is expired on the spot: the event is emitted and the entry deleted
(timeMap.delete with currentKey already nulled reduces to a plain map
delete).  The first not-yet-due entry becomes the current key and a timeout
of (timeLife - deltaTime) + 200 ms is armed for it, capturing key and value;
scanning then stops. -/
def sweep (now : Nat) : List (JSKey × TimeValue) → TMState → TMState
  | [], s => s
  | (k, e) :: rest, s =>
    if (s.timeLife : Int) ≤ (now : Int) - (e.ts : Int) then
      sweep now rest { s with
        store := mapDelete k s.store,
        emitted := s.emitted ++ [(k, e.value)] }
    else
      let t : Timer :=
        ⟨s.nextId, k, e.value,
          (now : Int) + (((s.timeLife : Int) - ((now : Int) - (e.ts : Int))) + 200)⟩
      { s with
        timers := s.timers ++ [t],
        nextId := s.nextId + 1,
        currKey := some k,
        interval := some t.id }

/-- checkInterval: null out the interval and current-key fields (without
cancelling any pending timeout), stop if the map is empty, otherwise run the
sweep over the entries sorted by timestamp. -/
def checkInterval (now : Nat) (s : TMState) : TMState :=
  let s1 := { s with interval := none, currKey := none }
  if s1.store = [] then s1
  else sweep now ((sortDesc s1.store).reverse) s1

/-! ### Public operations -/

/-- Fresh TimeMap (constructor with a numeric timeLifeMs). -/
def tmNew (timeLifeMs : Nat) : TMState :=
  { store := [], currKey := none, interval := none, timers := [],
    nextId := 0, emitted := [], timeLife := timeLifeMs }

/-- TimeMap#set (src/index.js lines 155-176).  After assertKey: when the key
is the current key, or no interval handle is stored, a fresh timeout of
timeLife ms is armed for this key (cancelling the old one only in the
current-key case); otherwise the schedule is untouched.  The entry is then
written with ts = now. -/
def tmSet (k : JSKey) (v : Nat) (now : Nat) (s : TMState) :
    Except JsError Unit × TMState :=
  if validKeyKind k then
    let s1 :=
      if s.currKey = some k ∨ s.interval = none then
        let sa := if s.currKey = some k then clearTimeoutH s.interval s
                  else { s with currKey := some k }
        let t : Timer := ⟨sa.nextId, k, v, (now : Int) + (sa.timeLife : Int)⟩
        { sa with timers := sa.timers ++ [t], nextId := sa.nextId + 1,
                  interval := some t.id }
      else s
    (Except.ok (), { s1 with store := mapSet k ⟨now, v⟩ s1.store })
  else (Except.error JsError.typeError, s)

/-- TimeMap#delete (src/index.js lines 199-211). -/
def tmDelete (k : JSKey) (now : Nat) (s : TMState) :
    Except JsError Unit × TMState :=
  if validKeyKind k then
    if s.currKey = some k then
      let s1 := clearTimeoutH s.interval s
      let s2 := { s1 with store := mapDelete k s1.store }
      (Except.ok (), checkInterval now s2)
    else
      (Except.ok (), { s with store := mapDelete k s.store })
  else (Except.error JsError.typeError, s)

/-- TimeMap#has (src/index.js lines 223-237): no key validation; on a hit
with refreshTimestamp the entry timestamp is overwritten in place and, when
the key is the current key, checkInterval is re-run. -/
def tmHas (k : JSKey) (refreshTimestamp : Bool) (now : Nat) (s : TMState) :
    Bool × TMState :=
  match mapGet k s.store with
  | none => (false, s)
  | some e =>
    if refreshTimestamp then
      let s1 := { s with store := mapSet k ⟨now, e.value⟩ s.store }
      (true, if s.currKey = some k then checkInterval now s1 else s1)
    else (true, s)

/-- TimeMap#get (src/index.js lines 251-266): no key validation; throws a
plain Error for an absent key before any mutation; same refresh semantics
as has. -/
def tmGet (k : JSKey) (refreshTimestamp : Bool) (now : Nat) (s : TMState) :
    Except JsError Nat × TMState :=
  match mapGet k s.store with
  | none => (Except.error JsError.notFoundError, s)
  | some e =>
    if refreshTimestamp then
      let s1 := { s with store := mapSet k ⟨now, e.value⟩ s.store }
      (Except.ok e.value, if s.currKey = some k then checkInterval now s1 else s1)
    else (Except.ok e.value, s)

/-- TimeMap#clear (src/index.js lines 276-283): cancel the timeout held in
the interval field, null the current key, replace the map — the interval
field itself is left as-is by the source. -/
def tmClear (s : TMState) : TMState :=
  let s1 := clearTimeoutH s.interval s
  { s1 with currKey := none, store := [] }

/-- The size accessor. -/
def tmSize (s : TMState) : Nat := s.store.length

/-- State during the expiration callback, after the event is emitted and the
timer has left the pending queue but before this.delete(key) runs; the
user's "expiration" handler observes exactly this state. -/
def fireMid (t : Timer) (s : TMState) : TMState :=
  { s with timers := removeTimer t.id s.timers,
           emitted := s.emitted ++ [(t.key, t.value)] }

/-- Firing of a pending timeout at wall-clock time now: only possible when
the handle is still pending and its deadline has been reached (Node never
invokes a timeout before its delay has elapsed).  The callback body is
emit("expiration", key, value) followed by this.delete(key). -/
def fireTimer (i : Nat) (now : Nat) (s : TMState) : Option TMState :=
  match findTimer i s.timers with
  | none => none
  | some t =>
    if (now : Int) < t.fireAt then none
    else some (tmDelete t.key now (fireMid t s)).2

/-! ### Concrete keys and execution traces used in counterexamples and
witnesses.  All wall-clock instants are milliseconds. -/

/-- A string key. -/
def aKey : JSKey := ⟨JSKind.str, 0⟩

/-- Another string key. -/
def bKey : JSKey := ⟨JSKind.str, 1⟩

/-- A boolean-typed key, rejected by assertKey. -/
def boolKey : JSKey := ⟨JSKind.boolKind, 0⟩

/-- timeLife 100: set aKey at t=0, then set bKey at t=10. -/
def twoEntries : TMState := (tmSet bKey 2 10 (tmSet aKey 1 0 (tmNew 100)).2).2

/-- Overwriting the current key aKey at t=50 while the older bKey entry is
still pending. -/
def overwriteCurr : TMState := (tmSet aKey 3 50 twoEntries).2

/-- Deleting the current key aKey at t=50, which re-arms for bKey. -/
def afterDeleteCurr : TMState := (tmDelete aKey 50 twoEntries).2

/-- timeLife 1000: set aKey at t=0 (timer 0 armed for t=1000). -/
def leak1 : TMState := (tmSet aKey 7 0 (tmNew 1000)).2

/-- Refreshing aKey at t=100 via has(key, true): checkInterval arms timer 1
for t=1300 without cancelling timer 0. -/
def leak2 : TMState := (tmHas aKey true 100 leak1).2

/-- A state with current key aKey and its armed timer, used as a witness
input. -/
def oneArmed : TMState :=
  { store := [(aKey, ⟨0, 7⟩)], currKey := some aKey, interval := some 0,
    timers := [⟨0, aKey, 7, 1000⟩], nextId := 1, emitted := [], timeLife := 1000 }

/-! ### Lemmas about the map primitives -/

theorem mapGet_eq_none_iff (k : JSKey) :
    ∀ l : List (JSKey × TimeValue), mapGet k l = none ↔ ∀ p ∈ l, p.1 ≠ k := by
  intro l
  induction l with
  | nil => simp [mapGet]
  | cons p rest ih =>
    by_cases h : p.1 = k
    · simp [mapGet, h]
    · simp [mapGet, h, ih]

theorem mem_of_mapGet (k : JSKey) (e : TimeValue) :
    ∀ l : List (JSKey × TimeValue), mapGet k l = some e → (k, e) ∈ l := by
  intro l
  induction l with
  | nil => simp [mapGet]
  | cons p rest ih =>
    by_cases h : p.1 = k
    · intro hg
      rw [mapGet, if_pos h] at hg
      obtain ⟨p1, p2⟩ := p
      simp only [Option.some.injEq] at hg
      simp only at h
      subst h
      subst hg
      exact List.mem_cons_self _ _
    · intro hg
      rw [mapGet, if_neg h] at hg
      exact List.mem_cons_of_mem _ (ih hg)

theorem mapGet_mem (k : JSKey) (e : TimeValue) :
    ∀ l : List (JSKey × TimeValue), nodupKeys l → (k, e) ∈ l → mapGet k l = some e := by
  intro l
  induction l with
  | nil => simp
  | cons p rest ih =>
    intro hnd hm
    have hnd' : nodupKeys rest := by
      have := hnd
      simp [nodupKeys] at this ⊢
      exact this.2
    rcases List.mem_cons.mp hm with heq | hmem
    · rw [← heq]
      simp [mapGet]
    · have hk : p.1 ≠ k := by
        intro hpk
        have : k ∈ rest.map Prod.fst := List.mem_map_of_mem Prod.fst hmem
        simp [nodupKeys, hpk] at hnd
        exact hnd.1 e hmem
      rw [mapGet, if_neg hk]
      exact ih hnd' hmem

theorem mem_mapDelete (k : JSKey) (p : JSKey × TimeValue) :
    ∀ l : List (JSKey × TimeValue), p ∈ mapDelete k l ↔ p ∈ l ∧ p.1 ≠ k := by
  intro l
  induction l with
  | nil => simp [mapDelete]
  | cons q rest ih =>
    by_cases h : q.1 = k
    · rw [mapDelete, if_pos h, ih]
      constructor
      · rintro ⟨hm, hne⟩
        exact ⟨List.mem_cons_of_mem _ hm, hne⟩
      · rintro ⟨hm, hne⟩
        rcases List.mem_cons.mp hm with heq | hm'
        · exact absurd (heq ▸ h) hne
        · exact ⟨hm', hne⟩
    · rw [mapDelete, if_neg h]
      constructor
      · intro hm
        rcases List.mem_cons.mp hm with heq | hm'
        · exact ⟨heq ▸ List.mem_cons_self q rest, heq ▸ h⟩
        · have := ih.mp hm'
          exact ⟨List.mem_cons_of_mem _ this.1, this.2⟩
      · rintro ⟨hm, hne⟩
        rcases List.mem_cons.mp hm with heq | hm'
        · exact heq ▸ List.mem_cons_self q (mapDelete k rest)
        · exact List.mem_cons_of_mem _ (ih.mpr ⟨hm', hne⟩)

theorem mapGet_mapDelete_self (k : JSKey) :
    ∀ l : List (JSKey × TimeValue), mapGet k (mapDelete k l) = none := by
  intro l
  rw [mapGet_eq_none_iff]
  intro p hp
  exact ((mem_mapDelete k p l).mp hp).2

theorem mapDelete_of_not_mem (k : JSKey) :
    ∀ l : List (JSKey × TimeValue), mapGet k l = none → mapDelete k l = l := by
  intro l
  induction l with
  | nil => intro _; rfl
  | cons p rest ih =>
    intro h
    rw [mapGet_eq_none_iff] at h
    have hp : p.1 ≠ k := h p (List.mem_cons_self p rest)
    rw [mapDelete, if_neg hp, ih]
    rw [mapGet_eq_none_iff]
    intro q hq
    exact h q (List.mem_cons_of_mem _ hq)

theorem nodupKeys_mapDelete (k : JSKey) :
    ∀ l : List (JSKey × TimeValue), nodupKeys l → nodupKeys (mapDelete k l) := by
  intro l
  induction l with
  | nil => intro _; simp [mapDelete, nodupKeys]
  | cons p rest ih =>
    intro hnd
    simp [nodupKeys] at hnd
    by_cases h : p.1 = k
    · rw [mapDelete, if_pos h]
      exact ih hnd.2
    · rw [mapDelete, if_neg h]
      simp [nodupKeys]
      refine ⟨?_, ih hnd.2⟩
      intro b hb
      have : (p.1, b) ∈ rest ∧ (p.1, b).1 ≠ k := (mem_mapDelete k (p.1, b) rest).mp hb
      exact hnd.1 b this.1

/-! ### Lemmas about the timer queue -/

theorem mem_removeTimer (i : Nat) (t : Timer) :
    ∀ l : List Timer, t ∈ removeTimer i l ↔ t ∈ l ∧ t.id ≠ i := by
  intro l
  induction l with
  | nil => simp [removeTimer]
  | cons u rest ih =>
    by_cases h : u.id = i
    · rw [removeTimer, if_pos h, ih]
      constructor
      · rintro ⟨hm, hne⟩
        exact ⟨List.mem_cons_of_mem _ hm, hne⟩
      · rintro ⟨hm, hne⟩
        rcases List.mem_cons.mp hm with heq | hm'
        · exact absurd (heq ▸ h) hne
        · exact ⟨hm', hne⟩
    · rw [removeTimer, if_neg h]
      constructor
      · intro hm
        rcases List.mem_cons.mp hm with heq | hm'
        · exact ⟨heq ▸ List.mem_cons_self u rest, heq ▸ h⟩
        · have := ih.mp hm'
          exact ⟨List.mem_cons_of_mem _ this.1, this.2⟩
      · rintro ⟨hm, hne⟩
        rcases List.mem_cons.mp hm with heq | hm'
        · exact heq ▸ List.mem_cons_self u (removeTimer i rest)
        · exact List.mem_cons_of_mem _ (ih.mpr ⟨hm', hne⟩)

theorem removeTimer_idem (i : Nat) :
    ∀ l : List Timer, removeTimer i (removeTimer i l) = removeTimer i l := by
  intro l
  induction l with
  | nil => rfl
  | cons u rest ih =>
    by_cases h : u.id = i
    · rw [removeTimer, if_pos h, ih]
    · rw [removeTimer, if_neg h, removeTimer, if_neg h, ih]

/-! ### Lemmas about the sort used by checkInterval -/

theorem sortDescInsert_perm (p : JSKey × TimeValue) :
    ∀ l : List (JSKey × TimeValue), (sortDescInsert p l).Perm (p :: l) := by
  intro l
  induction l with
  | nil => rw [sortDescInsert]
  | cons q rest ih =>
    by_cases h : q.2.ts ≤ p.2.ts
    · rw [sortDescInsert, if_pos h]
    · rw [sortDescInsert, if_neg h]
      exact (ih.cons q).trans (List.Perm.swap p q rest)

theorem sortDesc_perm :
    ∀ l : List (JSKey × TimeValue), (sortDesc l).Perm l := by
  intro l
  induction l with
  | nil => rw [sortDesc]
  | cons p rest ih =>
    rw [sortDesc]
    exact (sortDescInsert_perm p (sortDesc rest)).trans (ih.cons p)

theorem mem_sortDesc (p : JSKey × TimeValue) (l : List (JSKey × TimeValue)) :
    p ∈ sortDesc l ↔ p ∈ l :=
  (sortDesc_perm l).mem_iff

theorem pairwise_sortDescInsert (p : JSKey × TimeValue) :
    ∀ l : List (JSKey × TimeValue),
      l.Pairwise (fun a b => b.2.ts ≤ a.2.ts) →
      (sortDescInsert p l).Pairwise (fun a b => b.2.ts ≤ a.2.ts) := by
  intro l
  induction l with
  | nil => intro _; simp [sortDescInsert]
  | cons q rest ih =>
    intro h
    rw [List.pairwise_cons] at h
    obtain ⟨hq, hrest⟩ := h
    by_cases hc : q.2.ts ≤ p.2.ts
    · rw [sortDescInsert, if_pos hc]
      rw [List.pairwise_cons]
      constructor
      · intro b hb
        rcases List.mem_cons.mp hb with heq | hm
        · exact heq ▸ hc
        · exact le_trans (hq b hm) hc
      · rw [List.pairwise_cons]
        exact ⟨hq, hrest⟩
    · rw [sortDescInsert, if_neg hc]
      rw [List.pairwise_cons]
      constructor
      · intro b hb
        have hb' : b ∈ p :: rest := (sortDescInsert_perm p rest).mem_iff.mp hb
        rcases List.mem_cons.mp hb' with heq | hm
        · exact heq ▸ le_of_lt (lt_of_not_le hc)
        · exact hq b hm
      · exact ih hrest

theorem pairwise_sortDesc :
    ∀ l : List (JSKey × TimeValue),
      (sortDesc l).Pairwise (fun a b => b.2.ts ≤ a.2.ts) := by
  intro l
  induction l with
  | nil => rw [sortDesc]; exact List.Pairwise.nil
  | cons p rest ih =>
    rw [sortDesc]
    exact pairwise_sortDescInsert p (sortDesc rest) ih

theorem pairwise_asc_sortDesc_reverse (l : List (JSKey × TimeValue)) :
    ((sortDesc l).reverse).Pairwise (fun a b => a.2.ts ≤ b.2.ts) := by
  rw [List.pairwise_reverse]
  exact pairwise_sortDesc l

theorem nodup_keys_sortDesc_reverse (l : List (JSKey × TimeValue)) (h : nodupKeys l) :
    (((sortDesc l).reverse).map Prod.fst).Nodup := by
  have hperm : (((sortDesc l).reverse).map Prod.fst).Perm (l.map Prod.fst) :=
    ((sortDesc l).reverse_perm.trans (sortDesc_perm l)).map Prod.fst
  exact hperm.nodup_iff.mpr h

theorem mem_sortDesc_reverse (p : JSKey × TimeValue) (l : List (JSKey × TimeValue)) :
    p ∈ (sortDesc l).reverse ↔ p ∈ l := by
  rw [List.mem_reverse]
  exact mem_sortDesc p l

theorem mapGet_mapDelete_ne (k k' : JSKey) (h : k' ≠ k) :
    ∀ l : List (JSKey × TimeValue), mapGet k' (mapDelete k l) = mapGet k' l := by
  intro l
  induction l with
  | nil => rfl
  | cons p rest ih =>
    by_cases hp : p.1 = k
    · rw [mapDelete, if_pos hp, mapGet, if_neg (by rw [hp]; exact fun he => h he.symm), ih]
    · by_cases hp' : p.1 = k'
      · rw [mapDelete, if_neg hp, mapGet, if_pos hp', mapGet, if_pos hp']
      · rw [mapDelete, if_neg hp, mapGet, if_neg hp', mapGet, if_neg hp', ih]

/-! ### Behaviour of the sweep loop -/

theorem sweep_store_sub (now : Nat) :
    ∀ (l : List (JSKey × TimeValue)) (s : TMState),
      ∀ p ∈ (sweep now l s).store, p ∈ s.store := by
  intro l
  induction l with
  | nil => intro s p hp; exact hp
  | cons q rest ih =>
    intro s p hp
    obtain ⟨k, e⟩ := q
    by_cases hc : (s.timeLife : Int) ≤ (now : Int) - (e.ts : Int)
    · rw [sweep, if_pos hc] at hp
      have := ih _ p hp
      simp only at this
      exact ((mem_mapDelete k p s.store).mp this).1
    · rw [sweep, if_neg hc] at hp
      exact hp

theorem sweep_frame (now : Nat) :
    ∀ (l : List (JSKey × TimeValue)) (s : TMState),
      ((sweep now l s).timers = s.timers ∧ (sweep now l s).currKey = s.currKey ∧
       (sweep now l s).interval = s.interval ∧ (sweep now l s).nextId = s.nextId) ∨
      (∃ tn : Timer, (sweep now l s).timers = s.timers ++ [tn] ∧ tn.id = s.nextId ∧
       (sweep now l s).currKey = some tn.key ∧ (sweep now l s).interval = some tn.id) := by
  intro l
  induction l with
  | nil => intro s; left; exact ⟨rfl, rfl, rfl, rfl⟩
  | cons q rest ih =>
    intro s
    obtain ⟨k, e⟩ := q
    by_cases hc : (s.timeLife : Int) ≤ (now : Int) - (e.ts : Int)
    · rw [sweep, if_pos hc]
      exact ih _
    · rw [sweep, if_neg hc]
      right
      exact ⟨_, rfl, rfl, rfl, rfl⟩

theorem sweep_none (now : Nat) :
    ∀ (l : List (JSKey × TimeValue)) (s : TMState),
      s.currKey = none → s.interval = none →
      (∀ p ∈ s.store, p ∈ l) →
      (sweep now l s).currKey = none →
      (sweep now l s).store = [] ∧ (sweep now l s).interval = none := by
  intro l
  induction l with
  | nil =>
    intro s hck hiv hcov hres
    refine ⟨List.eq_nil_iff_forall_not_mem.mpr ?_, hiv⟩
    intro p hp
    exact (List.not_mem_nil p) (hcov p hp)
  | cons q rest ih =>
    intro s hck hiv hcov hres
    obtain ⟨k, e⟩ := q
    by_cases hc : (s.timeLife : Int) ≤ (now : Int) - (e.ts : Int)
    · rw [sweep, if_pos hc] at hres ⊢
      refine ih _ hck hiv ?_ hres
      intro p hp
      simp only at hp
      have hmem := (mem_mapDelete k p s.store).mp hp
      rcases List.mem_cons.mp (hcov p hmem.1) with heq | hm
      · exact absurd (by rw [heq]) hmem.2
      · exact hm
    · rw [sweep, if_neg hc] at hres
      simp at hres

theorem sweep_min (now : Nat) :
    ∀ (l : List (JSKey × TimeValue)) (s : TMState),
      s.currKey = none →
      l.Pairwise (fun a b => a.2.ts ≤ b.2.ts) →
      (∀ p ∈ l, mapGet p.1 s.store = some p.2) →
      (∀ p ∈ s.store, p ∈ l) →
      (l.map Prod.fst).Nodup →
      ∀ k, (sweep now l s).currKey = some k →
        ∃ e, mapGet k (sweep now l s).store = some e ∧
          ∀ p ∈ (sweep now l s).store, e.ts ≤ p.2.ts := by
  intro l
  induction l with
  | nil =>
    intro s hck _ _ _ _ k hres
    rw [sweep, hck] at hres
    exact absurd hres (by simp)
  | cons q rest ih =>
    intro s hck hpw hagree hcov hnd k hres
    obtain ⟨k0, e0⟩ := q
    rw [List.pairwise_cons] at hpw
    obtain ⟨hhead, hpwrest⟩ := hpw
    have hk0rest : ∀ p ∈ rest, p.1 ≠ k0 := by
      intro p hp hpk
      simp only [List.map_cons, List.nodup_cons] at hnd
      exact hnd.1 (hpk ▸ List.mem_map_of_mem Prod.fst hp)
    by_cases hc : (s.timeLife : Int) ≤ (now : Int) - (e0.ts : Int)
    · rw [sweep, if_pos hc] at hres ⊢
      refine ih { s with store := mapDelete k0 s.store,
                         emitted := s.emitted ++ [(k0, e0.value)] } hck hpwrest ?_ ?_ ?_ k hres
      · intro p hp
        simp only
        rw [mapGet_mapDelete_ne k0 p.1 (hk0rest p hp)]
        exact hagree p (List.mem_cons_of_mem _ hp)
      · intro p hp
        simp only at hp
        have hmem := (mem_mapDelete k0 p s.store).mp hp
        rcases List.mem_cons.mp (hcov p hmem.1) with heq | hm
        · exact absurd (by rw [heq]) hmem.2
        · exact hm
      · simp only [List.map_cons, List.nodup_cons] at hnd
        exact hnd.2
    · rw [sweep, if_neg hc] at hres ⊢
      simp only [Option.some.injEq] at hres
      refine ⟨e0, ?_, ?_⟩
      · simp only
        rw [← hres]
        exact hagree (k0, e0) (List.mem_cons_self _ _)
      · intro p hp
        simp only at hp
        rcases List.mem_cons.mp (hcov p hp) with heq | hm
        · rw [heq]
        · exact hhead p hm

/-! ### Field behaviour of clearTimeout on the interval handle -/

theorem clearTimeoutH_store (h : Option Nat) (s : TMState) :
    (clearTimeoutH h s).store = s.store := by
  cases h <;> rfl

theorem clearTimeoutH_currKey (h : Option Nat) (s : TMState) :
    (clearTimeoutH h s).currKey = s.currKey := by
  cases h <;> rfl

theorem clearTimeoutH_interval (h : Option Nat) (s : TMState) :
    (clearTimeoutH h s).interval = s.interval := by
  cases h <;> rfl

theorem clearTimeoutH_nextId (h : Option Nat) (s : TMState) :
    (clearTimeoutH h s).nextId = s.nextId := by
  cases h <;> rfl

theorem mem_clearTimeoutH_timers (h : Option Nat) (s : TMState) (t : Timer) :
    t ∈ (clearTimeoutH h s).timers ↔
      t ∈ s.timers ∧ ∀ i, h = some i → t.id ≠ i := by
  cases h with
  | none => simp [clearTimeoutH]
  | some i =>
    simp only [clearTimeoutH]
    rw [mem_removeTimer]
    constructor
    · rintro ⟨hm, hne⟩
      exact ⟨hm, fun j hj => by injection hj with hj; exact hj ▸ hne⟩
    · rintro ⟨hm, hall⟩
      exact ⟨hm, hall i rfl⟩

/-- Main property of checkInterval: whichever key it leaves as the current
key holds an entry whose timestamp is minimal among the entries that remain
in the store. -/
theorem checkInterval_min_ts (now : Nat) (s : TMState) (hnd : nodupKeys s.store)
    (k : JSKey) (hk : (checkInterval now s).currKey = some k) :
    ∃ e, mapGet k (checkInterval now s).store = some e ∧
      ∀ p ∈ (checkInterval now s).store, e.ts ≤ p.2.ts := by
  rw [checkInterval] at hk ⊢
  by_cases hemp : ({ s with interval := none, currKey := none } : TMState).store = []
  · rw [if_pos hemp] at hk
    exact absurd hk (by simp)
  · rw [if_neg hemp] at hk ⊢
    refine sweep_min now _ _ rfl
      (pairwise_asc_sortDesc_reverse _) ?_ ?_
      (nodup_keys_sortDesc_reverse _ hnd) k hk
    · intro p hp
      exact mapGet_mem p.1 p.2 _ hnd ((mem_sortDesc_reverse p _).mp hp)
    · intro p hp
      exact (mem_sortDesc_reverse p _).mpr hp

/-! ### Claims -/

/-- C1 counterexample: after the public operation set (overwriting the
current key aKey at t=50 while bKey, last touched at t=10, is still stored),
currentKey is still aKey although bKey now has the strictly smaller value of
lastTouched + timeLife (110 versus 150), so the armed timer does not belong
to the next entry due to expire. -/
theorem set_leaves_stale_currKey_cx :
    overwriteCurr.currKey = some aKey ∧
    mapGet aKey overwriteCurr.store = some ⟨50, 3⟩ ∧
    mapGet bKey overwriteCurr.store = some ⟨10, 2⟩ ∧
    ¬ (50 + overwriteCurr.timeLife ≤ 10 + overwriteCurr.timeLife) := by
  decide

/-- C1 (amended): whenever the re-arming algorithm checkInterval has just
run (after delete of the current key, refresh of the current key, or a
timer-fire sweep), a set currentKey identifies an entry whose
lastTouched + timeLife is minimal among all stored entries; the set
operation, however, does not re-run the algorithm and can leave currentKey
on a non-minimal entry. -/
theorem rearm_currKey_min_deadline (now : Nat) (s : TMState)
    (hnd : nodupKeys s.store) (k : JSKey)
    (hk : (checkInterval now s).currKey = some k) :
    ∃ e, mapGet k (checkInterval now s).store = some e ∧
      ∀ p ∈ (checkInterval now s).store,
        e.ts + s.timeLife ≤ p.2.ts + s.timeLife := by
  obtain ⟨e, hg, hmin⟩ := checkInterval_min_ts now s hnd k hk
  exact ⟨e, hg, fun p hp => Nat.add_le_add_right (hmin p hp) _⟩

/-- Witness for the amended C1 theorem at a concrete two-entry state. -/
theorem rearm_currKey_min_deadline_witness :
    ∃ e, mapGet aKey (checkInterval 50 twoEntries).store = some e ∧
      ∀ p ∈ (checkInterval 50 twoEntries).store,
        e.ts + twoEntries.timeLife ≤ p.2.ts + twoEntries.timeLife :=
  rearm_currKey_min_deadline 50 twoEntries (by decide) aKey (by decide)

/-- C2 evaluated at its failing input: refreshing the current key via
has(key, true) at t=100 leaves two outstanding timeouts (the original one
armed by set is never cancelled), and clear() leaves the interval handle
field set while currentKey is null, after which a set() arms no timer at
all. -/
theorem timer_leak_and_stale_handle :
    leak2.timers.length = 2 ∧
    leak2.currKey = some aKey ∧
    leak2.interval = some 1 ∧
    (∃ t ∈ leak2.timers, t.id = 0) ∧
    (tmClear leak1).currKey = none ∧
    (tmClear leak1).interval = some 0 ∧
    (tmSet aKey 8 200 (tmClear leak1)).2.timers = [] ∧
    mapGet aKey (tmSet aKey 8 200 (tmClear leak1)).2.store = some ⟨200, 8⟩ := by
  decide

/-- C6 evaluated at its failing input (the repro script shipped with the
repository): set aKey at t=0 with timeLife 1000, refresh it at t=100 via
has(aKey, true); the stale timeout armed by set still fires at t=1000,
emitting the expiration event and deleting the entry even though its
refreshed deadline is 1100. -/
theorem stale_timer_fires_despite_refresh :
    mapGet aKey leak2.store = some ⟨100, 7⟩ ∧
    (1000 : Nat) < 100 + leak2.timeLife ∧
    (fireTimer 0 1000 leak2).map
        (fun s => (s.emitted, mapGet aKey s.store, s.timers)) =
      some ([(aKey, 7)], none, []) := by
  decide

/-- C4 counterexample: deleting the current key at t=50 re-arms for bKey
(last touched t=10, elapsed 40, remaining lifetime 60), but the armed
timeout has delay 260 = 60 + 200, not the remaining lifetime. -/
theorem rearm_delay_slack_cx :
    afterDeleteCurr.currKey = some bKey ∧
    afterDeleteCurr.interval = some 1 ∧
    afterDeleteCurr.timers = [⟨1, bKey, 2, 310⟩] ∧
    mapGet bKey afterDeleteCurr.store = some ⟨10, 2⟩ ∧
    ¬ ((310 : Int) - 50 = (afterDeleteCurr.timeLife : Int) - ((50 : Int) - 10)) := by
  decide

/-- C4 (amended): when the re-arming loop selects the oldest not-yet-due
entry (elapsed < timeLife), the timeout it arms has delay exactly
(timeLife - elapsed) + 200: the remaining lifetime plus a fixed 200 ms
slack. -/
theorem rearm_delay_remaining_plus_slack (now : Nat) (k : JSKey)
    (e : TimeValue) (rest : List (JSKey × TimeValue)) (s : TMState)
    (hdue : ¬ (s.timeLife : Int) ≤ (now : Int) - (e.ts : Int)) :
    ∃ t : Timer, (sweep now ((k, e) :: rest) s).timers = s.timers ++ [t] ∧
      t.key = k ∧ t.value = e.value ∧
      t.fireAt - (now : Int) =
        ((s.timeLife : Int) - ((now : Int) - (e.ts : Int))) + 200 := by
  rw [sweep, if_neg hdue]
  exact ⟨_, rfl, rfl, rfl, by ring⟩

/-- Witness for the amended C4 theorem at a concrete entry. -/
theorem rearm_delay_remaining_plus_slack_witness :
    ∃ t : Timer, (sweep 50 [(bKey, ⟨10, 2⟩)] (tmNew 100)).timers =
        (tmNew 100).timers ++ [t] ∧
      t.key = bKey ∧ t.value = (⟨10, 2⟩ : TimeValue).value ∧
      t.fireAt - (50 : Int) =
        (((tmNew 100).timeLife : Int) - ((50 : Int) - ((⟨10, 2⟩ : TimeValue).ts : Int))) + 200 :=
  rearm_delay_remaining_plus_slack 50 bKey ⟨10, 2⟩ [] (tmNew 100) (by decide)

/-- C8 counterexample: for the boolean-typed key, set and delete throw a
TypeError, but has returns false without any error and get fails with the
not-found error, not a type error — validation is not applied at all four
boundaries. -/
theorem has_get_skip_key_validation_cx :
    tmHas boolKey false 0 (tmNew 100) = (false, tmNew 100) ∧
    tmGet boolKey false 0 (tmNew 100) = (Except.error JsError.notFoundError, tmNew 100) ∧
    JsError.notFoundError ≠ JsError.typeError ∧
    tmSet boolKey 5 0 (tmNew 100) = (Except.error JsError.typeError, tmNew 100) ∧
    tmDelete boolKey 0 (tmNew 100) = (Except.error JsError.typeError, tmNew 100) := by
  decide

/-- C8 (amended): key-kind validation happens only at the set and delete
boundaries, which throw a TypeError on a key that is not a string, symbol
or number and leave the state untouched; has performs no validation and
reports false for such a key (necessarily absent), and get performs no
validation and fails with the not-found error instead. -/
theorem key_validation_boundaries (k : JSKey) (v : Nat) (r : Bool)
    (now : Nat) (s : TMState) (hk : validKeyKind k = false) :
    tmSet k v now s = (Except.error JsError.typeError, s) ∧
    tmDelete k now s = (Except.error JsError.typeError, s) ∧
    (mapGet k s.store = none →
      tmHas k r now s = (false, s) ∧
      tmGet k r now s = (Except.error JsError.notFoundError, s)) := by
  refine ⟨?_, ?_, ?_⟩
  · rw [tmSet, if_neg (by rw [hk]; exact Bool.false_ne_true)]
  · rw [tmDelete, if_neg (by rw [hk]; exact Bool.false_ne_true)]
  · intro habs
    constructor
    · rw [tmHas, habs]
    · rw [tmGet, habs]

/-- Witness for the amended C8 theorem at the boolean key. -/
theorem key_validation_boundaries_witness :
    tmSet boolKey 5 0 (tmNew 100) = (Except.error JsError.typeError, tmNew 100) ∧
    tmDelete boolKey 0 (tmNew 100) = (Except.error JsError.typeError, tmNew 100) ∧
    (mapGet boolKey (tmNew 100).store = none →
      tmHas boolKey false 0 (tmNew 100) = (false, tmNew 100) ∧
      tmGet boolKey false 0 (tmNew 100) = (Except.error JsError.notFoundError, tmNew 100)) :=
  key_validation_boundaries boolKey 5 false 0 (tmNew 100) (by decide)

/-- C9: get returns the stored value for a present key, and for an absent
key it fails with the not-found error while returning the state completely
unchanged (the throw happens before any mutation). -/
theorem get_found_or_notFound (k : JSKey) (r : Bool) (now : Nat) (s : TMState) :
    (mapGet k s.store = none →
      tmGet k r now s = (Except.error JsError.notFoundError, s)) ∧
    (∀ e, mapGet k s.store = some e →
      (tmGet k r now s).1 = Except.ok e.value) := by
  constructor
  · intro habs
    rw [tmGet, habs]
  · intro e he
    rw [tmGet, he]
    cases r <;> simp

/-- Witness for the C9 theorem. -/
theorem get_found_or_notFound_witness :
    (mapGet bKey leak1.store = none →
      tmGet bKey false 5 leak1 = (Except.error JsError.notFoundError, leak1)) ∧
    (∀ e, mapGet bKey leak1.store = some e →
      (tmGet bKey false 5 leak1).1 = Except.ok e.value) :=
  get_found_or_notFound bKey false 5 leak1

/-- C10: deleting a key of an accepted kind that is absent from the store
(under the store invariant that the current key, when set, is present)
returns normally and leaves the whole state unchanged. -/
theorem delete_absent_noop (k : JSKey) (now : Nat) (s : TMState)
    (hk : validKeyKind k = true) (habs : mapGet k s.store = none)
    (hcur : ∀ c, s.currKey = some c → mapGet c s.store ≠ none) :
    tmDelete k now s = (Except.ok (), s) := by
  have hne : s.currKey ≠ some k := fun h => hcur k h habs
  rw [tmDelete, if_pos hk, if_neg hne, mapDelete_of_not_mem k s.store habs]

/-- Witness for the C10 theorem: deleting the absent bKey from a one-entry
state. -/
theorem delete_absent_noop_witness :
    tmDelete bKey 5 leak1 = (Except.ok (), leak1) :=
  delete_absent_noop bKey 5 leak1 (by decide) (by decide)
    (by intro c hc; rw [show leak1.currKey = some aKey from by decide] at hc;
        injection hc with hc; rw [← hc]; decide)

/-- C7: clear cancels the timeout referenced by the interval handle,
resets the current key and discards all entries; it is idempotent, and
afterwards contains (with either refresh flag) and size answer exactly as
on a freshly constructed store with the same timeLife. -/
theorem clear_resets (s : TMState) (k : JSKey) (r : Bool) (now : Nat) :
    tmClear (tmClear s) = tmClear s ∧
    (tmClear s).currKey = none ∧
    (tmClear s).store = [] ∧
    (∀ i, s.interval = some i → ∀ t ∈ (tmClear s).timers, t.id ≠ i) ∧
    (tmHas k r now (tmClear s)).1 = (tmHas k r now (tmNew s.timeLife)).1 ∧
    tmSize (tmClear s) = tmSize (tmNew s.timeLife) := by
  refine ⟨?_, rfl, rfl, ?_, rfl, rfl⟩
  · cases hI : s.interval with
    | none => simp [tmClear, clearTimeoutH, hI]
    | some i => simp [tmClear, clearTimeoutH, hI, removeTimer_idem]
  · intro i hi t ht
    have ht' : t ∈ (clearTimeoutH s.interval s).timers := ht
    exact ((mem_clearTimeoutH_timers s.interval s t).mp ht').2 i hi

/-- Witness for the C7 theorem at a concrete armed state. -/
theorem clear_resets_witness :
    tmClear (tmClear oneArmed) = tmClear oneArmed ∧
    (tmClear oneArmed).currKey = none ∧
    (tmClear oneArmed).store = [] ∧
    (∀ i, oneArmed.interval = some i → ∀ t ∈ (tmClear oneArmed).timers, t.id ≠ i) ∧
    (tmHas aKey true 5 (tmClear oneArmed)).1 = (tmHas aKey true 5 (tmNew oneArmed.timeLife)).1 ∧
    tmSize (tmClear oneArmed) = tmSize (tmNew oneArmed.timeLife) :=
  clear_resets oneArmed aKey true 5

/-- C3: an entry set at time T into a fresh store with lifetime L and then
left alone has exactly one pending timeout, armed for T + L; that timeout
cannot fire before T + L; when it fires at any tF at or after T + L, the
expiration event for (k, v) is emitted while the entry is still present in
the store (so contains and get called from the handler still see it), and
afterwards exactly one event has been emitted, the key is gone, the store
is empty and no timeout is pending, so no further notification can occur. -/
theorem single_entry_expires_once (L : Nat) (k : JSKey) (v T tF : Nat)
    (hk : validKeyKind k = true) (hdue : T + L ≤ tF) :
    ∃ t : Timer,
      (tmSet k v T (tmNew L)).2.timers = [t] ∧ t.key = k ∧ t.value = v ∧
      t.fireAt = (T : Int) + (L : Int) ∧
      (∀ u : Nat, u < T + L → fireTimer t.id u (tmSet k v T (tmNew L)).2 = none) ∧
      mapGet k (fireMid t (tmSet k v T (tmNew L)).2).store = some ⟨T, v⟩ ∧
      (fireMid t (tmSet k v T (tmNew L)).2).emitted = [(k, v)] ∧
      ∃ s2, fireTimer t.id tF (tmSet k v T (tmNew L)).2 = some s2 ∧
        s2.emitted = [(k, v)] ∧ mapGet k s2.store = none ∧
        s2.timers = [] ∧ s2.store = [] := by
  have hset : (tmSet k v T (tmNew L)).2 =
      { store := [(k, ⟨T, v⟩)], currKey := some k, interval := some 0,
        timers := [⟨0, k, v, (T : Int) + (L : Int)⟩], nextId := 1,
        emitted := [], timeLife := L } := by
    rw [tmSet, if_pos hk]
    simp [tmNew, mapSet]
  refine ⟨⟨0, k, v, (T : Int) + (L : Int)⟩, by rw [hset], rfl, rfl, rfl, ?_, ?_, ?_, ?_⟩
  · intro u hu
    have hu' : (u : Int) < (T : Int) + (L : Int) := by exact_mod_cast hu
    rw [hset]
    simp [fireTimer, findTimer, hu']
  · rw [hset]
    simp [fireMid, mapGet]
  · rw [hset]
    simp [fireMid, removeTimer]
  · have hge : ¬ ((tF : Int) < (T : Int) + (L : Int)) := by
      rw [not_lt]
      exact_mod_cast hdue
    refine ⟨{ store := [], currKey := none, interval := none, timers := [],
              nextId := 1, emitted := [(k, v)], timeLife := L }, ?_, rfl, rfl, rfl, rfl⟩
    rw [hset]
    simp [fireTimer, findTimer, hge, fireMid, removeTimer, tmDelete, hk,
          clearTimeoutH, mapDelete, checkInterval]

/-- Witness for the C3 theorem: lifetime 100, key set at t=0, fired at
t=100. -/
theorem single_entry_expires_once_witness :
    ∃ t : Timer,
      (tmSet aKey 7 0 (tmNew 100)).2.timers = [t] ∧ t.key = aKey ∧ t.value = 7 ∧
      t.fireAt = ((0 : Nat) : Int) + ((100 : Nat) : Int) ∧
      (∀ u : Nat, u < 0 + 100 → fireTimer t.id u (tmSet aKey 7 0 (tmNew 100)).2 = none) ∧
      mapGet aKey (fireMid t (tmSet aKey 7 0 (tmNew 100)).2).store = some ⟨0, 7⟩ ∧
      (fireMid t (tmSet aKey 7 0 (tmNew 100)).2).emitted = [(aKey, 7)] ∧
      ∃ s2, fireTimer t.id 100 (tmSet aKey 7 0 (tmNew 100)).2 = some s2 ∧
        s2.emitted = [(aKey, 7)] ∧ mapGet aKey s2.store = none ∧
        s2.timers = [] ∧ s2.store = [] :=
  single_entry_expires_once 100 aKey 7 0 100 (by decide) (by decide)

/-- C5: delete of a valid key always removes the entry; when the deleted key
was not the current key nothing but the map changes; when it was the current
key, the armed timeout is cancelled and checkInterval re-arms: afterwards
either nothing is armed and the store is empty (everything left was already
due and got swept), or the new current key holds an entry of minimal
lastTouched + timeLife among the remaining entries and a fresh timeout is
pending for it. -/
theorem delete_always_removes_and_rearms (k : JSKey) (now : Nat) (s : TMState)
    (hk : validKeyKind k = true) (hnd : nodupKeys s.store)
    (hfresh : ∀ i, s.interval = some i → i < s.nextId) :
    (tmDelete k now s).1 = Except.ok () ∧
    mapGet k (tmDelete k now s).2.store = none ∧
    (s.currKey ≠ some k →
      (tmDelete k now s).2 = { s with store := mapDelete k s.store }) ∧
    (s.currKey = some k →
      (∀ i, s.interval = some i → ∀ t ∈ (tmDelete k now s).2.timers, t.id ≠ i) ∧
      (((tmDelete k now s).2.currKey = none ∧ (tmDelete k now s).2.interval = none ∧
        (tmDelete k now s).2.store = []) ∨
       (∃ k' e, (tmDelete k now s).2.currKey = some k' ∧
          mapGet k' (tmDelete k now s).2.store = some e ∧
          (∀ p ∈ (tmDelete k now s).2.store,
            e.ts + s.timeLife ≤ p.2.ts + s.timeLife) ∧
          ∃ t ∈ (tmDelete k now s).2.timers,
            (tmDelete k now s).2.interval = some t.id ∧ t.key = k'))) := by
  by_cases hcur : s.currKey = some k
  · have h2 : tmDelete k now s =
        (Except.ok (), checkInterval now
          { clearTimeoutH s.interval s with
            store := mapDelete k (clearTimeoutH s.interval s).store }) := by
      unfold tmDelete
      rw [if_pos hk, if_pos hcur]
    have h2' : (tmDelete k now s).2 = checkInterval now
        { clearTimeoutH s.interval s with
          store := mapDelete k (clearTimeoutH s.interval s).store } := by
      rw [h2]
    have hsdel : ({ clearTimeoutH s.interval s with
        store := mapDelete k (clearTimeoutH s.interval s).store } : TMState).store =
        mapDelete k s.store := by
      rw [clearTimeoutH_store]
    have hnddel : nodupKeys (mapDelete k s.store) := nodupKeys_mapDelete k s.store hnd
    by_cases hemp : ({ clearTimeoutH s.interval s with
        store := mapDelete k (clearTimeoutH s.interval s).store } : TMState).store = []
    · -- the store became empty: checkInterval stops with nothing armed
      have h3 : (tmDelete k now s).2 =
          { clearTimeoutH s.interval s with
            store := mapDelete k (clearTimeoutH s.interval s).store,
            interval := none, currKey := none } := by
        rw [h2', checkInterval, if_pos hemp]
      refine ⟨by rw [h2], ?_, fun hne => absurd hcur hne, fun _ => ⟨?_, ?_⟩⟩
      · rw [h3]
        exact mapGet_mapDelete_self k ((clearTimeoutH s.interval s).store)
      · intro i hi t ht
        rw [h3] at ht
        have ht' : t ∈ (clearTimeoutH s.interval s).timers := ht
        exact ((mem_clearTimeoutH_timers s.interval s t).mp ht').2 i hi
      · left
        refine ⟨by rw [h3], by rw [h3], ?_⟩
        rw [h3]
        exact hemp
    · -- at least one entry remains: the sweep runs
      have h3 : (tmDelete k now s).2 =
          sweep now ((sortDesc (mapDelete k s.store)).reverse)
            { clearTimeoutH s.interval s with
              store := mapDelete k (clearTimeoutH s.interval s).store,
              interval := none, currKey := none } := by
        rw [h2', checkInterval, if_neg hemp, clearTimeoutH_store]
      have hagree : ∀ p ∈ (sortDesc (mapDelete k s.store)).reverse,
          mapGet p.1 ({ clearTimeoutH s.interval s with
            store := mapDelete k (clearTimeoutH s.interval s).store,
            interval := none, currKey := none } : TMState).store = some p.2 := by
        intro p hp
        have hp' : p ∈ mapDelete k s.store := (mem_sortDesc_reverse p _).mp hp
        have : ({ clearTimeoutH s.interval s with
            store := mapDelete k (clearTimeoutH s.interval s).store,
            interval := none, currKey := none } : TMState).store = mapDelete k s.store := by
          rw [clearTimeoutH_store]
        rw [this]
        exact mapGet_mem p.1 p.2 _ hnddel hp'
      have hcov : ∀ p ∈ ({ clearTimeoutH s.interval s with
            store := mapDelete k (clearTimeoutH s.interval s).store,
            interval := none, currKey := none } : TMState).store,
          p ∈ (sortDesc (mapDelete k s.store)).reverse := by
        intro p hp
        have : ({ clearTimeoutH s.interval s with
            store := mapDelete k (clearTimeoutH s.interval s).store,
            interval := none, currKey := none } : TMState).store = mapDelete k s.store := by
          rw [clearTimeoutH_store]
        rw [this] at hp
        exact (mem_sortDesc_reverse p _).mpr hp
      refine ⟨by rw [h2], ?_, fun hne => absurd hcur hne, fun _ => ⟨?_, ?_⟩⟩
      · -- the deleted key is absent from the swept store
        rw [h3, mapGet_eq_none_iff]
        intro p hp
        have hp' := sweep_store_sub now _ _ p hp
        have : ({ clearTimeoutH s.interval s with
            store := mapDelete k (clearTimeoutH s.interval s).store,
            interval := none, currKey := none } : TMState).store = mapDelete k s.store := by
          rw [clearTimeoutH_store]
        rw [this] at hp'
        exact ((mem_mapDelete k p s.store).mp hp').2
      · -- the timeout that was armed before the delete is cancelled
        intro i hi t ht
        rw [h3] at ht
        rcases sweep_frame now ((sortDesc (mapDelete k s.store)).reverse)
            { clearTimeoutH s.interval s with
              store := mapDelete k (clearTimeoutH s.interval s).store,
              interval := none, currKey := none } with ⟨hT, _, _, _⟩ | ⟨tn, hT, hid, _, _⟩
        · rw [hT] at ht
          have ht' : t ∈ (clearTimeoutH s.interval s).timers := ht
          exact ((mem_clearTimeoutH_timers s.interval s t).mp ht').2 i hi
        · rw [hT] at ht
          rcases List.mem_append.mp ht with hl | hr
          · have ht' : t ∈ (clearTimeoutH s.interval s).timers := hl
            exact ((mem_clearTimeoutH_timers s.interval s t).mp ht').2 i hi
          · have htn : t = tn := List.mem_singleton.mp hr
            have hnid : tn.id = s.nextId := by
              rw [hid]
              exact clearTimeoutH_nextId s.interval s
            rw [htn, hnid]
            exact Nat.ne_of_gt (hfresh i hi)
      · -- either nothing is armed and the store is empty, or a minimal
        -- entry carries the new timeout
        cases hrck : (tmDelete k now s).2.currKey with
        | none =>
          left
          rw [h3] at hrck ⊢
          have := sweep_none now ((sortDesc (mapDelete k s.store)).reverse)
            { clearTimeoutH s.interval s with
              store := mapDelete k (clearTimeoutH s.interval s).store,
              interval := none, currKey := none } rfl rfl hcov hrck
          exact ⟨rfl, this.2, this.1⟩
        | some k' =>
          right
          rw [h3] at hrck
          obtain ⟨e, hg, hmin⟩ := sweep_min now
            ((sortDesc (mapDelete k s.store)).reverse)
            { clearTimeoutH s.interval s with
              store := mapDelete k (clearTimeoutH s.interval s).store,
              interval := none, currKey := none } rfl
            (pairwise_asc_sortDesc_reverse _) hagree hcov
            (nodup_keys_sortDesc_reverse _ hnddel) k' hrck
          rcases sweep_frame now ((sortDesc (mapDelete k s.store)).reverse)
              { clearTimeoutH s.interval s with
                store := mapDelete k (clearTimeoutH s.interval s).store,
                interval := none, currKey := none } with ⟨_, hC, _, _⟩ | ⟨tn, hT, hid, hC, hI⟩
          · rw [hC] at hrck
            exact absurd hrck (by simp)
          · have hkey : tn.key = k' := by
              have := hC.symm.trans hrck
              exact Option.some.inj this
            refine ⟨k', e, rfl, by rw [h3]; exact hg, ?_, tn, ?_, ?_, hkey⟩
            · intro p hp
              rw [h3] at hp
              exact Nat.add_le_add_right (hmin p hp) _
            · rw [h3, hT]
              exact List.mem_append_right _ (List.mem_singleton_self tn)
            · rw [h3, hI]
  · have h2 : tmDelete k now s = (Except.ok (), { s with store := mapDelete k s.store }) := by
      unfold tmDelete
      rw [if_pos hk, if_neg hcur]
    rw [h2]
    exact ⟨rfl, mapGet_mapDelete_self k s.store, fun _ => rfl, fun h => absurd h hcur⟩

/-- Witness for the C5 theorem: deleting the current key aKey at t=50 from
the two-entry state. -/
theorem delete_always_removes_and_rearms_witness :
    (tmDelete aKey 50 twoEntries).1 = Except.ok () ∧
    mapGet aKey (tmDelete aKey 50 twoEntries).2.store = none ∧
    (twoEntries.currKey ≠ some aKey →
      (tmDelete aKey 50 twoEntries).2 = { twoEntries with store := mapDelete aKey twoEntries.store }) ∧
    (twoEntries.currKey = some aKey →
      (∀ i, twoEntries.interval = some i → ∀ t ∈ (tmDelete aKey 50 twoEntries).2.timers, t.id ≠ i) ∧
      (((tmDelete aKey 50 twoEntries).2.currKey = none ∧ (tmDelete aKey 50 twoEntries).2.interval = none ∧
        (tmDelete aKey 50 twoEntries).2.store = []) ∨
       (∃ k' e, (tmDelete aKey 50 twoEntries).2.currKey = some k' ∧
          mapGet k' (tmDelete aKey 50 twoEntries).2.store = some e ∧
          (∀ p ∈ (tmDelete aKey 50 twoEntries).2.store,
            e.ts + twoEntries.timeLife ≤ p.2.ts + twoEntries.timeLife) ∧
          ∃ t ∈ (tmDelete aKey 50 twoEntries).2.timers,
            (tmDelete aKey 50 twoEntries).2.interval = some t.id ∧ t.key = k'))) :=
  delete_always_removes_and_rearms aKey 50 twoEntries (by decide) (by decide)
    (by intro i hi;
        rw [show twoEntries.interval = some 0 from by decide] at hi;
        injection hi with hi;
        rw [← hi];
        decide)
